import Mathlib

/-!
Verification of the client-name reconciliation engine of the
erp-next-contract repository (`src/client_mapping/mapper.py`).

Strings are modelled as `List Char`.  The similarity scorer `fuzz.ratio`
comes from the external `fuzzywuzzy` library (not part of this repository),
so the matcher is parameterised over an arbitrary score function
`sim : Str → Str → Nat`; concrete instantiations used in witnesses and
counterexamples only take values that the real `fuzz.ratio` produces on the
corresponding normalized strings (both for the difflib backend and for the
python-Levenshtein backend).
-/

namespace ClientMapping

abbrev Str := List Char

/-- ASCII fragment of Python `str.lower` (all inputs appearing in this
development are ASCII). -/
def pyLower (c : Char) : Char :=
  if 65 ≤ c.toNat ∧ c.toNat ≤ 90 then Char.ofNat (c.toNat + 32) else c

/-- Python whitespace stripped by `str.strip()` (ASCII fragment). -/
def isPySpace (c : Char) : Bool :=
  c = ' ' || c = '\t' || c = '\n' || c = '\x0d' || c = '\x0b' || c = '\x0c'

/-- Python `str.strip()`: drop leading and trailing whitespace. -/
def pyStrip (s : Str) : Str :=
  ((s.dropWhile isPySpace).reverse.dropWhile isPySpace).reverse

/-- Helper for `replaceAll`, structurally recursive on the string: while
the skip counter is positive the current character belongs to a match
already being deleted; at counter zero a fresh match of `pat` starts a new
deletion of `pat.length` characters. -/
def replaceAllAux (pat : Str) : Nat → Str → Str
  | _, [] => []
  | Nat.succ k, _ :: rest => replaceAllAux pat k rest
  | 0, c :: rest =>
    if pat ≠ [] ∧ pat.isPrefixOf (c :: rest) then
      replaceAllAux pat (pat.length - 1) rest
    else
      c :: replaceAllAux pat 0 rest

/-- Python `s.replace(pat, "")`: delete every occurrence of `pat`,
scanning left to right and skipping past each match.  All replacement
strings in `_normalize_name` are empty, so only deletion is modelled.
(`mapper.py` lines 85-86.)  For the empty pattern — which never occurs in
the source — this is the identity. -/
def replaceAll (pat : Str) (s : Str) : Str :=
  replaceAllAux pat 0 s

/-- Decidable substring occurrence test (used to state when `replaceAll`
is the identity). -/
def containsPat (pat : Str) : Str → Bool
  | [] => pat.isPrefixOf []
  | c :: rest => pat.isPrefixOf (c :: rest) || containsPat pat rest

/-- The replacement list of `ClientMapper._normalize_name`
(`mapper.py` lines 69-83), in source order; every pair has an empty
replacement string. -/
def replacements : List Str :=
  [" inc.".data, " incorporated".data, " corp.".data, " corporation".data,
   " llc".data, " l.l.c.".data, " ltd".data, " limited".data, " gmbh".data,
   " co.".data, " company".data, ",".data, ".".data]

/-- `ClientMapper._normalize_name` (`mapper.py` lines 60-88):
empty input yields the empty string (`if not name: return ""`), otherwise
lowercase, delete each replacement pattern in order, and strip. -/
def normalizeName (name : Str) : Str :=
  if name = [] then []
  else pyStrip (replacements.foldl (fun s p => replaceAll p s) (name.map pyLower))

/-- One existing client record, as consumed by `_match_client`
(`mapper.py` lines 150-153). -/
structure RegistryClient where
  client_id : Str
  client_name : Str
  client_aliases : List Str
deriving DecidableEq

/-- The extracted candidate identity (`mapper.py` lines 131-133;
`client_info.get("alternative_names", [])` is modelled by the field with
`[]` supplied by the caller when absent). -/
structure ClientInfo where
  primary_name : Str
  alternative_names : List Str
deriving DecidableEq

/-- One entry of `alternative_matches` (`mapper.py` lines 199-203). -/
structure AltMatch where
  client_id : Str
  client_name : Str
  confidence_score : Rat
deriving DecidableEq

/-- The result dictionary of `_match_client`.  Python returns one of three
dict literals whose key sets differ; a key that a branch does not put in
its dict is modelled by `none` in the corresponding `Option` field
(`matched_client_id`/`matched_client_name` are present in every branch,
with `none` modelling the Python value `None`). -/
structure MatchResult where
  matched_client_id : Option Str
  matched_client_name : Option Str
  confidence_score : Rat
  recommendation : Option Str
  suggested_client_name : Option Str
  match_reasons : Option (List Str)
  alternative_matches : Option (List AltMatch)
deriving DecidableEq

def createNewClient : Str := "CREATE_NEW_CLIENT".data

def useMatch : Str := "USE_MATCH".data

/-- The derived recommendation of the spec: the accepting branch of
`_match_client` stores no `recommendation` key, and the spec describes its
result as `USE_MATCH` ("derived, not stored, from whether a match cleared
the threshold"). -/
def recommendationOf (r : MatchResult) : Str :=
  r.recommendation.getD useMatch

/-- Running best-match state of the registry scan (`mapper.py` lines
139-144).  The Python variable `best_match` holds the client dict itself and
is compared by object identity (`best_match is not client`); since the
registry entries are distinct parsed objects, identity is modelled by the
position of the client `best_idx` in the scanned list. -/
structure BestState where
  best_score : Nat
  best_idx : Option Nat
  best_client_id : Option Str
  best_client_name : Option Str
  match_reasons : List Str
deriving DecidableEq

def initState : BestState := ⟨0, none, none, none, []⟩

def exactReason : Str := "Exact name match (normalized)".data

def fuzzyNameReason (score : Nat) : Str :=
  "Fuzzy match with score ".data ++ (Nat.repr score).data
    ++ " against client name".data

def quoteChar : Char := Char.ofNat 39

def fuzzyAliasReason (score : Nat) (a : Str) : Str :=
  "Fuzzy match with score ".data ++ (Nat.repr score).data
    ++ " against alias ".data ++ (quoteChar :: a) ++ [quoteChar]

/-- The alias loop of `_match_client` (`mapper.py` lines 186-195) for one
`name_to_check` whose normalized form is `nname`. -/
def scanAliases (sim : Str → Str → Nat) (nname : Str) (idx : Nat)
    (c : RegistryClient) : List Str → BestState → BestState
  | [], st => st
  | a :: rest, st =>
    let alias_score := sim nname (normalizeName a)
    let st' :=
      if alias_score > st.best_score then
        { best_score := alias_score, best_idx := some idx,
          best_client_id := some c.client_id,
          best_client_name := some c.client_name,
          match_reasons := [fuzzyAliasReason alias_score a] }
      else st
    scanAliases sim nname idx c rest st'

/-- The body of the `for name_to_check in all_names_to_check` loop
(`mapper.py` lines 168-195): score against the normalized client name,
update the running best on strict improvement, then — unless the running
best already exceeds 95 (`continue`, line 182-183) — scan the aliases. -/
def scanName (sim : Str → Str → Nat) (idx : Nat) (c : RegistryClient)
    (nm : Str) (st : BestState) : BestState :=
  let nname := normalizeName nm
  let score := sim nname (normalizeName c.client_name)
  let st1 :=
    if score > st.best_score then
      { best_score := score, best_idx := some idx,
        best_client_id := some c.client_id,
        best_client_name := some c.client_name,
        match_reasons := [fuzzyNameReason score] }
    else st
  if st1.best_score > 95 then st1
  else scanAliases sim nname idx c c.client_aliases st1

/-- All `name_to_check` iterations for one client. -/
def processNames (sim : Str → Str → Nat) (idx : Nat) (c : RegistryClient) :
    List Str → BestState → BestState
  | [], st => st
  | nm :: rest, st => processNames sim idx c rest (scanName sim idx c nm st)

def altEntry (c : RegistryClient) (score : Nat) : AltMatch :=
  ⟨c.client_id, c.client_name, (score : Rat) / 100⟩

/-- The `for client in existing_clients` loop (`mapper.py` lines 150-203):
exact normalized-name short-circuit (lines 158-165, a `break`), otherwise
the per-name scan followed by the alternative-matches append (lines
197-203, which tests the *global* running `best_score` and appends this
client with `best_score / 100`). -/
def scanClients (sim : Str → Str → Nat) (allNames : List Str)
    (nprimary : Str) :
    List RegistryClient → Nat → BestState → List AltMatch →
    BestState × List AltMatch
  | [], _, st, alts => (st, alts)
  | c :: rest, idx, st, alts =>
    if nprimary = normalizeName c.client_name then
      ({ best_score := 100, best_idx := some idx,
         best_client_id := some c.client_id,
         best_client_name := some c.client_name,
         match_reasons := st.match_reasons ++ [exactReason] }, alts)
    else
      let st' := processNames sim idx c allNames st
      let alts' :=
        if st'.best_score < 95 ∧ 60 < st'.best_score ∧ st'.best_idx ≠ some idx
        then alts ++ [altEntry c st'.best_score]
        else alts
      scanClients sim allNames nprimary rest (idx + 1) st' alts'

/-- Descending-by-confidence ordering used on `alternative_matches`. -/
def altGE (a b : AltMatch) : Prop := b.confidence_score ≤ a.confidence_score

instance : DecidableRel altGE := fun a b =>
  inferInstanceAs (Decidable (b.confidence_score ≤ a.confidence_score))

/-- Python `sorted(key=confidence_score, reverse=True)` is a stable
descending sort; `List.insertionSort` with the (total, transitive)
relation `altGE` computes exactly that. -/
def sortAltsDesc (l : List AltMatch) : List AltMatch :=
  List.insertionSort altGE l

/-- The full registry scan of `_match_client`: the `all_names_to_check`
list is `[primary_name] + alternative_names` (`mapper.py` line 136), the
scan starts from the initial best-match state with empty
`alternative_matches`. -/
def scanResult (sim : Str → Str → Nat) (info : ClientInfo)
    (clients : List RegistryClient) : BestState × List AltMatch :=
  scanClients sim (info.primary_name :: info.alternative_names)
    (normalizeName info.primary_name) clients 0 initState []

/-- The `best_score / 100` normalization (`mapper.py` line 206). -/
def nscoreOf (sim : Str → Str → Nat) (info : ClientInfo)
    (clients : List RegistryClient) : Rat :=
  ((scanResult sim info clients).1.best_score : Rat) / 100

/-- The result dict of the empty-registry branch
(`mapper.py` lines 121-129): no `match_reasons` and no
`alternative_matches` key. -/
def emptyRegistryResult (info : ClientInfo) : MatchResult :=
  { matched_client_id := none, matched_client_name := none,
    confidence_score := 0, recommendation := some createNewClient,
    suggested_client_name := some info.primary_name,
    match_reasons := none, alternative_matches := none }

/-- The result dict of the accepting branch (`mapper.py` lines 210-220):
no `recommendation` and no `suggested_client_name` key, alternatives
sorted descending and truncated to 3. -/
def acceptResult (sim : Str → Str → Nat) (info : ClientInfo)
    (clients : List RegistryClient) : MatchResult :=
  { matched_client_id := (scanResult sim info clients).1.best_client_id,
    matched_client_name := (scanResult sim info clients).1.best_client_name,
    confidence_score := nscoreOf sim info clients,
    recommendation := none,
    suggested_client_name := none,
    match_reasons := some (scanResult sim info clients).1.match_reasons,
    alternative_matches :=
      some ((sortAltsDesc (scanResult sim info clients).2).take 3) }

/-- The result dict of the rejecting branch (`mapper.py` lines 223-234):
no `match_reasons` key, confidence `normalized_score if best_match else
0.0`, alternatives sorted descending and truncated to 5. -/
def rejectResult (sim : Str → Str → Nat) (info : ClientInfo)
    (clients : List RegistryClient) : MatchResult :=
  { matched_client_id := none, matched_client_name := none,
    confidence_score :=
      if (scanResult sim info clients).1.best_idx.isSome then
        nscoreOf sim info clients
      else 0,
    recommendation := some createNewClient,
    suggested_client_name := some info.primary_name,
    match_reasons := none,
    alternative_matches :=
      some ((sortAltsDesc (scanResult sim info clients).2).take 5) }

/-- `ClientMapper._match_client` (`mapper.py` lines 90-234) for a given
score function, candidate, registry snapshot and configured threshold
(`self.config.client_mapping_confidence_threshold`).  The acceptance test
is `normalized_score >= self.config.client_mapping_confidence_threshold`
(line 209). -/
def matchClient (sim : Str → Str → Nat) (info : ClientInfo)
    (clients : List RegistryClient) (threshold : Rat) : MatchResult :=
  if clients = [] then emptyRegistryResult info
  else if threshold ≤ nscoreOf sim info clients then
    acceptResult sim info clients
  else rejectResult sim info clients

/-- The largest similarity score any comparison involving this client can
produce (its canonical name and each alias against every candidate name);
an upper bound for what the spec calls the own best-observed score of the client. -/
def clientBestPossibleScore (sim : Str → Str → Nat) (allNames : List Str)
    (c : RegistryClient) : Nat :=
  (allNames.map (fun nm =>
      let nname := normalizeName nm
      (sim nname (normalizeName c.client_name) ::
        c.client_aliases.map (fun a => sim nname (normalizeName a))).foldl
        max 0)).foldl max 0

/-! Concrete score functions and scenarios used in witnesses and
counterexamples.  Every score below agrees with the real
`fuzz.ratio` on the corresponding normalized strings, for both the
difflib backend and the python-Levenshtein backend:
`fuzz.ratio(x, x) = 100`; `fuzz.ratio` of two strings with no common
character is `0`; `fuzz.ratio("alphabet", "alphabex") = 88`
(`round(100 * 2 * 7 / 16)`); and
`fuzz.ratio("abcdefghijklmnopqrstuvwxyz", "abcdefghijklmnopqrstuvwxyy") = 96`
(`round(100 * 2 * 25 / 52)`). -/

def simEq : Str → Str → Nat := fun a b => if a = b then 100 else 0

def simAB : Str → Str → Nat := fun a b =>
  if a = b then 100
  else if a = "alphabet".data ∧ b = "alphabex".data then 88 else 0

def simXYZ : Str → Str → Nat := fun a b =>
  if a = b then 100
  else if a = "abcdefghijklmnopqrstuvwxyz".data ∧
          b = "abcdefghijklmnopqrstuvwxyy".data then 96 else 0

def acmeInfo : ClientInfo := ⟨"Acme Corporation".data, []⟩

def acmeClient : RegistryClient := ⟨"C1".data, "Acme Corporation Inc.".data, []⟩

def globexInfo : ClientInfo := ⟨"Globex".data, []⟩

def zzzInfo : ClientInfo := ⟨"zzz".data, []⟩

def zeroClient : RegistryClient := ⟨"C1".data, "000".data, []⟩

def alphaInfo : ClientInfo := ⟨"Alphabet".data, []⟩

def alphaClient : RegistryClient := ⟨"CA".data, "Alphabex".data, []⟩

def altZeroClient : RegistryClient := ⟨"CB".data, "000".data, []⟩

def xyzInfo : ClientInfo := ⟨"abcdefghijklmnopqrstuvwxyz".data, []⟩

def xyyClient : RegistryClient :=
  ⟨"CA".data, "abcdefghijklmnopqrstuvwxyy".data, []⟩

def xyzAliasClient : RegistryClient :=
  ⟨"CB".data, "000".data, ["abcdefghijklmnopqrstuvwxyz".data]⟩

def zetaInfo : ClientInfo := ⟨"Zeta".data, []⟩

def zetaAliasClient : RegistryClient := ⟨"CB".data, "000".data, ["zeta".data]⟩

/-! General lemmas about the three branches of `matchClient`. -/

theorem matchClient_nil_eq (sim : Str → Str → Nat) (info : ClientInfo)
    (t : Rat) : matchClient sim info [] t = emptyRegistryResult info := rfl

theorem matchClient_cases (sim : Str → Str → Nat) (info : ClientInfo)
    (clients : List RegistryClient) (t : Rat) :
    (matchClient sim info clients t = emptyRegistryResult info ∧ clients = [])
    ∨ (matchClient sim info clients t = acceptResult sim info clients ∧
        clients ≠ [] ∧ t ≤ nscoreOf sim info clients)
    ∨ (matchClient sim info clients t = rejectResult sim info clients ∧
        clients ≠ [] ∧ ¬ t ≤ nscoreOf sim info clients) := by
  by_cases hc : clients = []
  · exact Or.inl ⟨by rw [hc]; rfl, hc⟩
  · by_cases hl : t ≤ nscoreOf sim info clients
    · exact Or.inr (Or.inl ⟨by unfold matchClient; rw [if_neg hc, if_pos hl],
        hc, hl⟩)
    · exact Or.inr (Or.inr ⟨by unfold matchClient; rw [if_neg hc, if_neg hl],
        hc, hl⟩)

theorem recommendationOf_accept (sim : Str → Str → Nat) (info : ClientInfo)
    (clients : List RegistryClient) :
    recommendationOf (acceptResult sim info clients) = useMatch := rfl

theorem recommendationOf_reject (sim : Str → Str → Nat) (info : ClientInfo)
    (clients : List RegistryClient) :
    recommendationOf (rejectResult sim info clients) = createNewClient := rfl

theorem recommendationOf_empty (info : ClientInfo) :
    recommendationOf (emptyRegistryResult info) = createNewClient := rfl

theorem useMatch_ne_createNewClient : useMatch ≠ createNewClient := by decide

/-! The invariant "no best client recorded implies best score zero",
carried through the scan. -/

theorem scanAliases_id_inv (sim : Str → Str → Nat) (nname : Str) (idx : Nat)
    (c : RegistryClient) (as : List Str) :
    ∀ st : BestState, (st.best_client_id = none → st.best_score = 0) →
      (scanAliases sim nname idx c as st).best_client_id = none →
      (scanAliases sim nname idx c as st).best_score = 0 := by
  induction as with
  | nil => intro st h; exact h
  | cons a rest ih =>
    intro st h
    simp only [scanAliases]
    apply ih
    by_cases hgt : sim nname (normalizeName a) > st.best_score
    · simp only [if_pos hgt]
      intro hid
      exact absurd hid (by simp)
    · simp only [if_neg hgt]
      exact h

theorem scanName_id_inv (sim : Str → Str → Nat) (idx : Nat)
    (c : RegistryClient) (nm : Str) (st : BestState)
    (h : st.best_client_id = none → st.best_score = 0) :
    (scanName sim idx c nm st).best_client_id = none →
      (scanName sim idx c nm st).best_score = 0 := by
  unfold scanName
  by_cases hgt :
      sim (normalizeName nm) (normalizeName c.client_name) > st.best_score
  · simp only [if_pos hgt]
    split
    · intro hid; exact absurd hid (by simp)
    · apply scanAliases_id_inv
      intro hid; exact absurd hid (by simp)
  · simp only [if_neg hgt]
    split
    · exact h
    · exact scanAliases_id_inv sim _ idx c c.client_aliases st h

theorem processNames_id_inv (sim : Str → Str → Nat) (idx : Nat)
    (c : RegistryClient) (names : List Str) :
    ∀ st : BestState, (st.best_client_id = none → st.best_score = 0) →
      (processNames sim idx c names st).best_client_id = none →
      (processNames sim idx c names st).best_score = 0 := by
  induction names with
  | nil => intro st h; exact h
  | cons nm rest ih =>
    intro st h
    simp only [processNames]
    exact ih _ (scanName_id_inv sim idx c nm st h)

theorem scanClients_fst_id_inv (sim : Str → Str → Nat) (allNames : List Str)
    (nprimary : Str) (clients : List RegistryClient) :
    ∀ (idx : Nat) (st : BestState) (alts : List AltMatch),
      (st.best_client_id = none → st.best_score = 0) →
      (scanClients sim allNames nprimary clients idx st alts).1.best_client_id
          = none →
      (scanClients sim allNames nprimary clients idx st alts).1.best_score
          = 0 := by
  induction clients with
  | nil => intro idx st alts h; exact h
  | cons c rest ih =>
    intro idx st alts h
    simp only [scanClients]
    split
    · intro hid; exact absurd hid (by simp)
    · exact ih _ _ _ (processNames_id_inv sim idx c allNames st h)

theorem scanResult_id_inv (sim : Str → Str → Nat) (info : ClientInfo)
    (clients : List RegistryClient)
    (h : (scanResult sim info clients).1.best_client_id = none) :
    (scanResult sim info clients).1.best_score = 0 :=
  scanClients_fst_id_inv sim _ _ clients 0 initState []
    (fun _ => rfl) h

/-! Rational-arithmetic helper facts (thresholds used in the concrete
scenarios). -/

theorem rat_zero_lt_three_quarters : (0 : Rat) < 3 / 4 := by norm_num

theorem rat_three_quarters_le_one : (3 / 4 : Rat) ≤ 1 := by norm_num

theorem rat_half_le_three_quarters : (1 / 2 : Rat) ≤ 3 / 4 := by norm_num

/-! Concrete evaluations of the acme and zzz scenarios. -/

theorem scanResult_acme :
    scanResult simEq acmeInfo [acmeClient] =
      (⟨100, some 0, some "C1".data, some "Acme Corporation Inc.".data,
        [exactReason]⟩, []) := by decide

theorem nscore_acme : nscoreOf simEq acmeInfo [acmeClient] = 1 := by
  rw [nscoreOf, scanResult_acme]
  norm_num

theorem matchClient_acme_34 :
    matchClient simEq acmeInfo [acmeClient] (3 / 4) =
      acceptResult simEq acmeInfo [acmeClient] := by
  unfold matchClient
  rw [if_neg (by simp), if_pos (by rw [nscore_acme]; norm_num)]

theorem matchClient_acme_half :
    matchClient simEq acmeInfo [acmeClient] (1 / 2) =
      acceptResult simEq acmeInfo [acmeClient] := by
  unfold matchClient
  rw [if_neg (by simp), if_pos (by rw [nscore_acme]; norm_num)]

theorem acme_34_useMatch :
    recommendationOf (matchClient simEq acmeInfo [acmeClient] (3 / 4)) =
      useMatch := by
  rw [matchClient_acme_34]; rfl

theorem scanResult_zzz :
    scanResult simEq zzzInfo [zeroClient] = (initState, []) := by decide

theorem matchClient_zzz_zero :
    matchClient simEq zzzInfo [zeroClient] 0 =
      acceptResult simEq zzzInfo [zeroClient] := by
  unfold matchClient
  rw [if_neg (by simp),
    if_pos (by rw [nscoreOf, scanResult_zzz]; simp [initState])]

/-- C6: for every score function, candidate and threshold, matching
against the empty registry yields the CREATE_NEW_CLIENT outcome with
confidence 0, no matched client id, and the suggested name equal to the
primary name of the candidate; the final conjunct shows the result is
independent of the score function and of the threshold, i.e. no
similarity comparison influences it. -/
theorem c6_empty_registry (sim sim2 : Str → Str → Nat) (info : ClientInfo)
    (t t2 : Rat) :
    recommendationOf (matchClient sim info [] t) = createNewClient ∧
    (matchClient sim info [] t).confidence_score = 0 ∧
    (matchClient sim info [] t).matched_client_id = none ∧
    (matchClient sim info [] t).suggested_client_name
        = some info.primary_name ∧
    matchClient sim info [] t = matchClient sim2 info [] t2 :=
  ⟨rfl, rfl, rfl, rfl, rfl⟩

/-- C5 counterexample: the claim says every result carries
`match_reasons` and `alternative_matches`, but the empty-registry result
dict (`mapper.py` lines 123-129) has neither key. -/
theorem c5_counterexample :
    (matchClient simEq globexInfo [] (3 / 4)).match_reasons = none ∧
    (matchClient simEq globexInfo [] (3 / 4)).alternative_matches = none :=
  ⟨rfl, rfl⟩

/-- C5 (amended): every call terminates in exactly one of the two
recommendation states; a USE_MATCH decision carries `matched_client_id`,
`matched_client_name`, `confidence_score`, `match_reasons` and
`alternative_matches`; a CREATE_NEW_CLIENT decision never carries
`match_reasons`, carries `alternative_matches` exactly when the registry
is non-empty, and on the empty registry equals the fixed
`emptyRegistryResult` (which lacks both keys). -/
theorem c5_two_states_amended (sim : Str → Str → Nat) (info : ClientInfo)
    (clients : List RegistryClient) (t : Rat) :
    (recommendationOf (matchClient sim info clients t) = useMatch ∨
      recommendationOf (matchClient sim info clients t) = createNewClient) ∧
    (recommendationOf (matchClient sim info clients t) = useMatch →
      (matchClient sim info clients t).match_reasons ≠ none ∧
      (matchClient sim info clients t).alternative_matches ≠ none) ∧
    (recommendationOf (matchClient sim info clients t) = createNewClient →
      (matchClient sim info clients t).match_reasons = none) ∧
    (clients ≠ [] →
      (matchClient sim info clients t).alternative_matches ≠ none) ∧
    (clients = [] →
      matchClient sim info clients t = emptyRegistryResult info) := by
  rcases matchClient_cases sim info clients t with
    ⟨heq, hc⟩ | ⟨heq, hc, _⟩ | ⟨heq, hc, _⟩
  · rw [heq]
    refine ⟨Or.inr rfl, fun h => ?_, fun _ => rfl, fun hne => ?_, fun _ => rfl⟩
    · rw [recommendationOf_empty] at h
      exact absurd h (by decide)
    · exact absurd hc hne
  · rw [heq]
    refine ⟨Or.inl rfl, fun _ => ⟨by simp [acceptResult], by simp [acceptResult]⟩,
      fun h => ?_, fun _ => by simp [acceptResult], fun h => absurd h hc⟩
    · rw [recommendationOf_accept] at h
      exact absurd h (by decide)
  · rw [heq]
    refine ⟨Or.inr rfl, fun h => ?_, fun _ => rfl,
      fun _ => by simp [rejectResult], fun h => absurd h hc⟩
    · rw [recommendationOf_reject] at h
      exact absurd h (by decide)

/-- C5 witness: the amended theorem applied to the Globex candidate with
the empty registry. -/
theorem c5_witness :
    recommendationOf (matchClient simEq globexInfo [] (3 / 4)) = useMatch ∨
    recommendationOf (matchClient simEq globexInfo [] (3 / 4))
      = createNewClient :=
  (c5_two_states_amended simEq globexInfo [] (3 / 4)).1

/-- C4 counterexample: at the caller-supplied threshold `0.0` the claimed
invariant fails: with a candidate sharing no similarity with the only
registry client (`fuzz.ratio` score 0), the accepting branch is taken
(`0 >= 0`), so the decision is USE_MATCH while `matched_client_id` is
`None`. -/
theorem c4_counterexample :
    recommendationOf (matchClient simEq zzzInfo [zeroClient] 0) = useMatch ∧
    (matchClient simEq zzzInfo [zeroClient] 0).matched_client_id = none := by
  rw [matchClient_zzz_zero]
  exact ⟨rfl, by simp [acceptResult, scanResult_zzz, initState]⟩

/-- C4 (amended): for every strictly positive threshold the invariant
holds: a USE_MATCH decision carries a matched client id and a confidence
score at least the threshold, and a CREATE_NEW_CLIENT decision carries
none.  (At threshold `0.0` — the only value the counterexample forces out
— a USE_MATCH decision may carry no id.) -/
theorem c4_invariant_amended (sim : Str → Str → Nat) (info : ClientInfo)
    (clients : List RegistryClient) (t : Rat) (ht : 0 < t) :
    (recommendationOf (matchClient sim info clients t) = useMatch →
      (matchClient sim info clients t).matched_client_id ≠ none ∧
      t ≤ (matchClient sim info clients t).confidence_score) ∧
    (recommendationOf (matchClient sim info clients t) = createNewClient →
      (matchClient sim info clients t).matched_client_id = none) := by
  rcases matchClient_cases sim info clients t with
    ⟨heq, _⟩ | ⟨heq, _, hl⟩ | ⟨heq, _, _⟩
  · rw [heq]
    exact ⟨fun h => absurd ((recommendationOf_empty info) ▸ h) (by decide),
      fun _ => rfl⟩
  · rw [heq]
    refine ⟨fun _ => ⟨fun hid => ?_, hl⟩, fun h =>
      absurd ((recommendationOf_accept sim info clients) ▸ h) (by decide)⟩
    have hs : (scanResult sim info clients).1.best_score = 0 :=
      scanResult_id_inv sim info clients hid
    rw [nscoreOf, hs] at hl
    have h0 : ((0 : Nat) : Rat) / 100 = 0 := by norm_num
    rw [h0] at hl
    exact absurd hl (not_le.mpr ht)
  · rw [heq]
    exact ⟨fun h => absurd ((recommendationOf_reject sim info clients) ▸ h)
      (by decide), fun _ => rfl⟩

/-- C4 witness: the amended invariant applied to the exact-match acme
scenario at threshold `0.75`. -/
theorem c4_witness :
    (matchClient simEq acmeInfo [acmeClient] (3 / 4)).matched_client_id
        ≠ none ∧
    (3 / 4 : Rat)
        ≤ (matchClient simEq acmeInfo [acmeClient] (3 / 4)).confidence_score :=
  (c4_invariant_amended simEq acmeInfo [acmeClient] (3 / 4)
    rat_zero_lt_three_quarters).1 acme_34_useMatch

/-- C8: for a fixed score function, candidate and registry the decision
is antitone in the threshold: if the higher threshold `t2` still accepts
(USE_MATCH), then so does every lower threshold `t1`. -/
theorem c8_threshold_monotone (sim : Str → Str → Nat) (info : ClientInfo)
    (clients : List RegistryClient) (t1 t2 : Rat) (h12 : t1 ≤ t2)
    (h2 : recommendationOf (matchClient sim info clients t2) = useMatch) :
    recommendationOf (matchClient sim info clients t1) = useMatch := by
  rcases matchClient_cases sim info clients t2 with
    ⟨heq, _⟩ | ⟨_, hc, hl⟩ | ⟨heq, _, _⟩
  · rw [heq] at h2
    exact absurd ((recommendationOf_empty info) ▸ h2) (by decide)
  · have : matchClient sim info clients t1 = acceptResult sim info clients := by
      unfold matchClient
      rw [if_neg hc, if_pos (le_trans h12 hl)]
    rw [this]
    rfl
  · rw [heq] at h2
    exact absurd ((recommendationOf_reject sim info clients) ▸ h2)
      (by decide)

/-- C8 witness: the acme scenario accepts at threshold `0.75`, hence also
at `0.5`. -/
theorem c8_witness :
    (1 / 2 : Rat) ≤ 3 / 4 ∧
    recommendationOf (matchClient simEq acmeInfo [acmeClient] (3 / 4))
        = useMatch ∧
    recommendationOf (matchClient simEq acmeInfo [acmeClient] (1 / 2))
        = useMatch :=
  ⟨rat_half_le_three_quarters, acme_34_useMatch,
    c8_threshold_monotone simEq acmeInfo [acmeClient] (1 / 2) (3 / 4)
      rat_half_le_three_quarters acme_34_useMatch⟩

/-! Sortedness of the alternatives list. -/

theorem sortAltsDesc_pairwise (l : List AltMatch) :
    List.Pairwise altGE (sortAltsDesc l) := by
  haveI : IsTotal AltMatch altGE :=
    ⟨fun a b => le_total b.confidence_score a.confidence_score⟩
  haveI : IsTrans AltMatch altGE :=
    ⟨fun a b c hab hbc => le_trans hbc hab⟩
  exact List.sorted_insertionSort altGE l

/-! Concrete evaluation of the Alphabet/Alphabex scenario: client CA
scores 88 against the primary name, client CB scores 0 everywhere, yet CB
is appended to `alternative_matches` carrying the global best score 88. -/

theorem scanResult_alpha_fst :
    (scanResult simAB alphaInfo [alphaClient, altZeroClient]).1 =
      ⟨88, some 0, some "CA".data, some "Alphabex".data,
        [fuzzyNameReason 88]⟩ := by decide

theorem scanResult_alpha_snd :
    (scanResult simAB alphaInfo [alphaClient, altZeroClient]).2 =
      [altEntry altZeroClient 88] := rfl

theorem matchClient_alpha :
    matchClient simAB alphaInfo [alphaClient, altZeroClient] (19 / 20) =
      rejectResult simAB alphaInfo [alphaClient, altZeroClient] := by
  unfold matchClient
  rw [if_neg (by simp),
    if_neg (by rw [nscoreOf, scanResult_alpha_fst]; norm_num)]

theorem alpha_alternatives :
    (matchClient simAB alphaInfo [alphaClient, altZeroClient]
        (19 / 20)).alternative_matches = some [altEntry altZeroClient 88] := by
  rw [matchClient_alpha]
  rfl

/-- C10: for every score function, candidate, registry and threshold, the
`alternative_matches` sequence of the returned decision (when the decision
carries one) is sorted in descending order of confidence and its length is
at most 3 on a USE_MATCH decision and at most 5 on a CREATE_NEW_CLIENT
decision. -/
theorem c10_alternatives_sorted_capped (sim : Str → Str → Nat)
    (info : ClientInfo) (clients : List RegistryClient) (t : Rat)
    (l : List AltMatch)
    (h : (matchClient sim info clients t).alternative_matches = some l) :
    List.Pairwise altGE l ∧
    (recommendationOf (matchClient sim info clients t) = useMatch →
      l.length ≤ 3) ∧
    (recommendationOf (matchClient sim info clients t) = createNewClient →
      l.length ≤ 5) := by
  rcases matchClient_cases sim info clients t with
    ⟨heq, _⟩ | ⟨heq, _, _⟩ | ⟨heq, _, _⟩
  · rw [heq] at h
    exact absurd h (by simp [emptyRegistryResult])
  · rw [heq] at h ⊢
    have hl : l = (sortAltsDesc (scanResult sim info clients).2).take 3 := by
      have : some ((sortAltsDesc (scanResult sim info clients).2).take 3)
          = some l := h
      exact (Option.some_injective _ this).symm
    subst hl
    refine ⟨List.Pairwise.sublist (List.take_sublist _ _)
      (sortAltsDesc_pairwise _), fun _ => ?_, fun hcr => ?_⟩
    · exact List.length_take_le _ _
    · exact le_trans (List.length_take_le _ _) (by norm_num)
  · rw [heq] at h ⊢
    have hl : l = (sortAltsDesc (scanResult sim info clients).2).take 5 := by
      have : some ((sortAltsDesc (scanResult sim info clients).2).take 5)
          = some l := h
      exact (Option.some_injective _ this).symm
    subst hl
    refine ⟨List.Pairwise.sublist (List.take_sublist _ _)
      (sortAltsDesc_pairwise _), fun hum => ?_, fun _ => ?_⟩
    · rw [recommendationOf_reject] at hum
      exact absurd hum (by decide)
    · exact List.length_take_le _ _

/-- C10 witness: the Alphabet scenario produces a one-element
alternatives list, which is sorted and within both caps. -/
theorem c10_witness :
    List.Pairwise altGE [altEntry altZeroClient 88] ∧
    (recommendationOf (matchClient simAB alphaInfo
        [alphaClient, altZeroClient] (19 / 20)) = useMatch →
      ([altEntry altZeroClient 88] : List AltMatch).length ≤ 3) ∧
    (recommendationOf (matchClient simAB alphaInfo
        [alphaClient, altZeroClient] (19 / 20)) = createNewClient →
      ([altEntry altZeroClient 88] : List AltMatch).length ≤ 5) :=
  c10_alternatives_sorted_capped simAB alphaInfo [alphaClient, altZeroClient]
    (19 / 20) [altEntry altZeroClient 88] alpha_alternatives

/-! Splitting the registry scan at a prefix containing no exact match. -/

theorem scanClients_append_noexact (sim : Str → Str → Nat)
    (allNames : List Str) (np : Str) (pre : List RegistryClient)
    (hno : ∀ x ∈ pre, np ≠ normalizeName x.client_name) :
    ∀ (l₂ : List RegistryClient) (idx : Nat) (st : BestState)
      (alts : List AltMatch),
      scanClients sim allNames np (pre ++ l₂) idx st alts =
        scanClients sim allNames np l₂ (idx + pre.length)
          (scanClients sim allNames np pre idx st alts).1
          (scanClients sim allNames np pre idx st alts).2 := by
  induction pre with
  | nil =>
    intro l₂ idx st alts
    simp [scanClients]
  | cons c rest ih =>
    intro l₂ idx st alts
    have hc : ¬ np = normalizeName c.client_name := hno c (by simp)
    have hrest : ∀ x ∈ rest, np ≠ normalizeName x.client_name :=
      fun x hx => hno x (List.mem_cons_of_mem c hx)
    simp only [List.cons_append, scanClients, if_neg hc, List.append_eq]
    rw [ih hrest l₂ (idx + 1)]
    have harith : idx + 1 + rest.length = idx + (rest.length + 1) := by omega
    simp only [List.length_cons, harith]

/-- C2 counterexample: with candidate "Alphabet" and registry
[CA "Alphabex", CB "000"], client CA scores 88 (the global best) and
client CB scores 0 in every comparison it takes part in; nevertheless the
returned decision records CB in `alternative_matches`, with confidence
`88 / 100` — the global best score, not the own score 0 of CB, which does
not lie strictly between 60 and 95. -/
theorem c2_counterexample :
    (matchClient simAB alphaInfo [alphaClient, altZeroClient]
        (19 / 20)).alternative_matches = some [altEntry altZeroClient 88] ∧
    clientBestPossibleScore simAB
        (alphaInfo.primary_name :: alphaInfo.alternative_names)
        altZeroClient = 0 ∧
    altEntry altZeroClient 88 =
      ⟨"CB".data, "000".data, (88 : Rat) / 100⟩ :=
  ⟨alpha_alternatives, by decide, rfl⟩

/-- C2 (amended): after a client `c` (at position `pre.length`, with no
exact normalized-name match anywhere in `pre ++ [c]`) is processed, an
entry for `c` is appended to `alternative_matches` if and only if the
*global* running best score after processing `c` lies strictly between 60
and 95 and the global best match is not `c` itself; the recorded
confidence is that global best score divided by 100 (`altEntry`), not a
score attributable to `c`. -/
theorem c2_alternatives_amended (sim : Str → Str → Nat) (info : ClientInfo)
    (pre : List RegistryClient) (c : RegistryClient)
    (hno : ∀ x ∈ pre ++ [c],
      normalizeName info.primary_name ≠ normalizeName x.client_name) :
    (scanResult sim info (pre ++ [c])).1 =
        processNames sim pre.length c
          (info.primary_name :: info.alternative_names)
          (scanResult sim info pre).1 ∧
    (scanResult sim info (pre ++ [c])).2 =
      (scanResult sim info pre).2 ++
        (if (scanResult sim info (pre ++ [c])).1.best_score < 95 ∧
            60 < (scanResult sim info (pre ++ [c])).1.best_score ∧
            (scanResult sim info (pre ++ [c])).1.best_idx ≠ some pre.length
         then [altEntry c (scanResult sim info (pre ++ [c])).1.best_score]
         else []) := by
  have hpre : ∀ x ∈ pre,
      normalizeName info.primary_name ≠ normalizeName x.client_name :=
    fun x hx => hno x (List.mem_append_left _ hx)
  have hc : ¬ normalizeName info.primary_name
      = normalizeName c.client_name :=
    hno c (List.mem_append_right _ (by simp))
  have hsplit := scanClients_append_noexact sim
    (info.primary_name :: info.alternative_names)
    (normalizeName info.primary_name) pre hpre [c] 0 initState []
  have hzero : (0 : Nat) + pre.length = pre.length := by omega
  rw [hzero] at hsplit
  unfold scanResult
  rw [hsplit]
  simp only [scanClients, if_neg hc]
  constructor
  · trivial
  · by_cases hcond :
        (processNames sim pre.length c
            (info.primary_name :: info.alternative_names)
            (scanClients sim (info.primary_name :: info.alternative_names)
              (normalizeName info.primary_name) pre 0 initState
              []).1).best_score < 95 ∧
        60 < (processNames sim pre.length c
            (info.primary_name :: info.alternative_names)
            (scanClients sim (info.primary_name :: info.alternative_names)
              (normalizeName info.primary_name) pre 0 initState
              []).1).best_score ∧
        (processNames sim pre.length c
            (info.primary_name :: info.alternative_names)
            (scanClients sim (info.primary_name :: info.alternative_names)
              (normalizeName info.primary_name) pre 0 initState
              []).1).best_idx ≠ some pre.length
    · rw [if_pos hcond, if_pos hcond]
    · rw [if_neg hcond, if_neg hcond, List.append_nil]

/-- C2 witness: the amended characterisation applied to the Alphabet
scenario at the second client. -/
theorem c2_witness :
    (scanResult simAB alphaInfo ([alphaClient] ++ [altZeroClient])).1 =
      processNames simAB ([alphaClient] : List RegistryClient).length
        altZeroClient
        (alphaInfo.primary_name :: alphaInfo.alternative_names)
        (scanResult simAB alphaInfo [alphaClient]).1 :=
  (c2_alternatives_amended simAB alphaInfo [alphaClient] altZeroClient
    (by decide)).1

/-! The exact-match break: once a client whose normalized canonical name
equals the normalized primary name is reached, the scan stops. -/

theorem scanClients_exact_break (sim : Str → Str → Nat) (allNames : List Str)
    (np : Str) (c : RegistryClient) (post : List RegistryClient)
    (hc : np = normalizeName c.client_name) (pre : List RegistryClient)
    (hpre : ∀ x ∈ pre, np ≠ normalizeName x.client_name) :
    ∀ (idx : Nat) (st : BestState) (alts : List AltMatch),
      scanClients sim allNames np (pre ++ c :: post) idx st alts =
        scanClients sim allNames np (pre ++ [c]) idx st alts := by
  induction pre with
  | nil =>
    intro idx st alts
    simp only [List.nil_append, scanClients, if_pos hc]
  | cons c' rest ih =>
    intro idx st alts
    have hc' : ¬ np = normalizeName c'.client_name := hpre c' (by simp)
    simp only [List.cons_append, scanClients, if_neg hc', List.append_eq]
    exact ih (fun x hx => hpre x (List.mem_cons_of_mem _ hx)) _ _ _

/-- C1: for every candidate, any registry split as `pre ++ c :: post`
where no client of `pre` but the client `c` normalizes identically to the
primary name, and any threshold at most 1: the decision is USE_MATCH with
confidence 1, the selected client is `c` — the first such client in
iteration order — the reasons contain the exact-match reason, and the
whole result equals the result on the truncated registry `pre ++ [c]`
(clients after `c` are never examined, so a later exact duplicate is
neither selected nor reported as an alternative). -/
theorem c1_exact_short_circuit (sim : Str → Str → Nat) (info : ClientInfo)
    (pre : List RegistryClient) (c : RegistryClient)
    (post : List RegistryClient) (t : Rat)
    (hpre : ∀ x ∈ pre,
      normalizeName x.client_name ≠ normalizeName info.primary_name)
    (hc : normalizeName c.client_name = normalizeName info.primary_name)
    (ht : t ≤ 1) :
    recommendationOf (matchClient sim info (pre ++ c :: post) t)
        = useMatch ∧
    (matchClient sim info (pre ++ c :: post) t).confidence_score = 1 ∧
    (matchClient sim info (pre ++ c :: post) t).matched_client_id
        = some c.client_id ∧
    (matchClient sim info (pre ++ c :: post) t).matched_client_name
        = some c.client_name ∧
    (∃ rs, (matchClient sim info (pre ++ c :: post) t).match_reasons
        = some rs ∧ exactReason ∈ rs) ∧
    matchClient sim info (pre ++ c :: post) t
        = matchClient sim info (pre ++ [c]) t := by
  have hpre' : ∀ x ∈ pre,
      normalizeName info.primary_name ≠ normalizeName x.client_name :=
    fun x hx h => hpre x hx h.symm
  have hres : scanResult sim info (pre ++ c :: post)
      = scanResult sim info (pre ++ [c]) := by
    unfold scanResult
    exact scanClients_exact_break sim _ _ c post hc.symm pre hpre' 0 initState []
  have hsplit := scanClients_append_noexact sim
    (info.primary_name :: info.alternative_names)
    (normalizeName info.primary_name) pre hpre' [c] 0 initState []
  have hzero : (0 : Nat) + pre.length = pre.length := by omega
  rw [hzero] at hsplit
  have hstate : (scanResult sim info (pre ++ [c])).1 =
      ⟨100, some pre.length, some c.client_id, some c.client_name,
        (scanResult sim info pre).1.match_reasons ++ [exactReason]⟩ := by
    unfold scanResult
    rw [hsplit]
    simp only [scanClients, if_pos hc.symm]
  have hn : nscoreOf sim info (pre ++ [c]) = 1 := by
    rw [nscoreOf, hstate]
    norm_num
  have hne1 : pre ++ c :: post ≠ [] := by simp
  have hne2 : pre ++ [c] ≠ [] := by simp
  have hmc : matchClient sim info (pre ++ c :: post) t
      = matchClient sim info (pre ++ [c]) t := by
    unfold matchClient
    rw [if_neg hne1, if_neg hne2]
    unfold acceptResult rejectResult nscoreOf
    rw [hres]
  have hacc : matchClient sim info (pre ++ [c]) t
      = acceptResult sim info (pre ++ [c]) := by
    unfold matchClient
    rw [if_neg hne2, if_pos (by rw [hn]; exact ht)]
  rw [hmc, hacc]
  refine ⟨rfl, ?_, ?_, ?_, ?_, rfl⟩
  · show nscoreOf sim info (pre ++ [c]) = 1
    exact hn
  · show (scanResult sim info (pre ++ [c])).1.best_client_id
        = some c.client_id
    rw [hstate]
  · show (scanResult sim info (pre ++ [c])).1.best_client_name
        = some c.client_name
    rw [hstate]
  · refine ⟨(scanResult sim info pre).1.match_reasons ++ [exactReason],
      ?_, by simp⟩
    show some (scanResult sim info (pre ++ [c])).1.match_reasons = _
    rw [hstate]

/-- C1 witness: the acme scenario — the single registry client
normalizes identically to the candidate ("acme"), threshold `0.75`. -/
theorem c1_witness :
    normalizeName acmeClient.client_name
        = normalizeName acmeInfo.primary_name ∧
    recommendationOf (matchClient simEq acmeInfo [acmeClient] (3 / 4))
        = useMatch ∧
    (matchClient simEq acmeInfo [acmeClient] (3 / 4)).confidence_score = 1 :=
  ⟨by decide,
    (c1_exact_short_circuit simEq acmeInfo [] acmeClient [] (3 / 4)
      (by simp) (by decide) rat_three_quarters_le_one).1,
    (c1_exact_short_circuit simEq acmeInfo [] acmeClient [] (3 / 4)
      (by simp) (by decide) rat_three_quarters_le_one).2.1⟩

/-! Lemmas about the normalizer. -/

theorem pyLower_toNat_valid (n : Nat) (h : n ≤ 122) :
    (Char.ofNat n).toNat = n := by
  have hv : n.isValidChar := Or.inl (by omega)
  rw [Char.ofNat, dif_pos hv]
  rfl

theorem pyLower_idem (c : Char) : pyLower (pyLower c) = pyLower c := by
  by_cases h : 65 ≤ c.toNat ∧ c.toNat ≤ 90
  · have ht : (pyLower c).toNat = c.toNat + 32 := by
      rw [pyLower, if_pos h]
      exact pyLower_toNat_valid _ (by omega)
    have hni : ¬ (65 ≤ (pyLower c).toNat ∧ (pyLower c).toNat ≤ 90) := by
      rw [ht]; omega
    conv_lhs => rw [pyLower]
    rw [if_neg hni]
  · have hc : pyLower c = c := by rw [pyLower, if_neg h]
    rw [hc]
    exact hc

theorem map_pyLower_idem (s : Str) :
    (s.map pyLower).map pyLower = s.map pyLower := by
  induction s with
  | nil => rfl
  | cons c rest ih => simp only [List.map_cons, pyLower_idem, ih]

theorem mem_replaceAllAux (pat : Str) (s : Str) :
    ∀ (k : Nat) (c : Char), c ∈ replaceAllAux pat k s → c ∈ s := by
  induction s with
  | nil =>
    intro k c h
    cases k <;> simp [replaceAllAux] at h
  | cons x rest ih =>
    intro k c h
    match k with
    | Nat.succ j =>
      simp only [replaceAllAux] at h
      exact List.mem_cons_of_mem _ (ih j c h)
    | 0 =>
      simp only [replaceAllAux] at h
      split at h
      · exact List.mem_cons_of_mem _ (ih _ c h)
      · rcases List.mem_cons.mp h with hh | hh
        · exact hh ▸ List.mem_cons_self _ _
        · exact List.mem_cons_of_mem _ (ih 0 c hh)

theorem mem_of_mem_replaceAll (pat s : Str) (c : Char)
    (h : c ∈ replaceAll pat s) : c ∈ s :=
  mem_replaceAllAux pat s 0 c h

theorem mem_of_mem_foldl_replaceAll (c : Char) :
    ∀ (pats : List Str) (s : Str),
      c ∈ List.foldl (fun s p => replaceAll p s) s pats → c ∈ s := by
  intro pats
  induction pats with
  | nil => intro s h; exact h
  | cons p ps ih =>
    intro s h
    exact mem_of_mem_replaceAll p s c (ih (replaceAll p s) h)

theorem mem_of_mem_pyStrip (s : Str) (c : Char) (h : c ∈ pyStrip s) :
    c ∈ s := by
  rw [pyStrip, List.mem_reverse] at h
  have h1 := (List.dropWhile_sublist _).mem h
  rw [List.mem_reverse] at h1
  exact (List.dropWhile_sublist _).mem h1

theorem pyLower_fixed_of_mem_normalizeName (x : Str) (c : Char)
    (h : c ∈ normalizeName x) : pyLower c = c := by
  rw [normalizeName] at h
  split at h
  · simp at h
  · have h1 := mem_of_mem_pyStrip _ _ h
    have h2 := mem_of_mem_foldl_replaceAll c replacements _ h1
    rcases List.mem_map.mp h2 with ⟨d, _, hd⟩
    rw [← hd, pyLower_idem]

theorem map_pyLower_normalizeName (x : Str) :
    (normalizeName x).map pyLower = normalizeName x := by
  have : ∀ c ∈ normalizeName x, pyLower c = c :=
    fun c hc => pyLower_fixed_of_mem_normalizeName x c hc
  calc (normalizeName x).map pyLower
      = (normalizeName x).map id := List.map_congr_left this
    _ = normalizeName x := List.map_id _

theorem normalizeName_map_pyLower (x : Str) :
    normalizeName (x.map pyLower) = normalizeName x := by
  by_cases hx : x = []
  · subst hx; rfl
  · rw [normalizeName, normalizeName, if_neg hx,
      if_neg (by simpa using hx), map_pyLower_idem]

theorem replaceAllAux_zero_of_not_contains (pat : Str) :
    ∀ s : Str, containsPat pat s = false → replaceAllAux pat 0 s = s := by
  intro s
  induction s with
  | nil => intro _; rfl
  | cons x rest ih =>
    intro h
    rw [containsPat, Bool.or_eq_false_iff] at h
    rw [replaceAllAux, if_neg (by
      rintro ⟨-, hp⟩
      rw [h.1] at hp
      exact absurd hp (by simp)), ih h.2]

theorem replaceAll_of_not_contains (pat s : Str)
    (h : containsPat pat s = false) : replaceAll pat s = s :=
  replaceAllAux_zero_of_not_contains pat s h

theorem foldl_replaceAll_id (s : Str) :
    ∀ pats : List Str, (∀ p ∈ pats, containsPat p s = false) →
      List.foldl (fun s p => replaceAll p s) s pats = s := by
  intro pats
  induction pats with
  | nil => intro _; rfl
  | cons p ps ih =>
    intro h
    rw [List.foldl_cons, replaceAll_of_not_contains p s (h p (by simp)),
      ih (fun q hq => h q (List.mem_cons_of_mem _ hq))]

theorem dropWhile_dropWhile (p : Char → Bool) (l : Str) :
    List.dropWhile p (List.dropWhile p l) = List.dropWhile p l := by
  induction l with
  | nil => rfl
  | cons x rest ih =>
    by_cases hx : p x
    · rw [List.dropWhile_cons, if_pos hx, ih]
    · rw [List.dropWhile_cons, if_neg hx, List.dropWhile_cons, if_neg hx]

theorem head?_dropWhile_false (p : Char → Bool) (l : Str) :
    ∀ c, (List.dropWhile p l).head? = some c → p c = false := by
  induction l with
  | nil => intro c h; simp at h
  | cons x rest ih =>
    intro c h
    by_cases hx : p x
    · rw [List.dropWhile_cons, if_pos hx] at h
      exact ih c h
    · rw [List.dropWhile_cons, if_neg hx] at h
      have : x = c := by simpa using h
      rw [← this]
      exact Bool.not_eq_true _ ▸ (by simpa using hx)

theorem dropWhile_eq_self_of_head? (p : Char → Bool) (l : Str)
    (h : ∀ c, l.head? = some c → p c = false) :
    List.dropWhile p l = l := by
  cases l with
  | nil => rfl
  | cons x rest =>
    have := h x rfl
    rw [List.dropWhile_cons, if_neg (by simp [this])]

theorem getLast?_dropWhile (p : Char → Bool) (l : Str) :
    List.dropWhile p l ≠ [] →
      (List.dropWhile p l).getLast? = l.getLast? := by
  induction l with
  | nil => intro h; exact absurd rfl h
  | cons x rest ih =>
    intro h
    by_cases hx : p x
    · rw [List.dropWhile_cons, if_pos hx] at h ⊢
      have hrest : rest ≠ [] := by
        intro he
        rw [he] at h
        exact h rfl
      rcases List.exists_cons_of_ne_nil hrest with ⟨y, t, hy⟩
      rw [ih h, hy, List.getLast?_cons_cons]
    · rw [List.dropWhile_cons, if_neg hx]

theorem pyStrip_idem (s : Str) : pyStrip (pyStrip s) = pyStrip s := by
  set u := List.dropWhile isPySpace s with hu
  set w := List.dropWhile isPySpace u.reverse with hw
  have hts : pyStrip s = w.reverse := rfl
  rw [hts]
  have step1 : List.dropWhile isPySpace w.reverse = w.reverse := by
    apply dropWhile_eq_self_of_head?
    intro c hc
    by_cases hwnil : w = []
    · rw [hwnil] at hc
      simp at hc
    · rw [List.head?_reverse] at hc
      rw [hw] at hc
      rw [getLast?_dropWhile _ _ (hw ▸ hwnil)] at hc
      rw [List.getLast?_reverse] at hc
      exact head?_dropWhile_false isPySpace s c (hu ▸ hc)
  rw [pyStrip, step1, List.reverse_reverse, hw, dropWhile_dropWhile]

/-- C7 counterexample: the normalizer is not idempotent.  For the input
`"a l,lc"` the first pass deletes only the comma, producing `"a llc"`; a
second pass then deletes the freshly formed `" llc"` suffix, producing
`"a"`. -/
theorem c7_counterexample :
    normalizeName (normalizeName "a l,lc".data)
      ≠ normalizeName "a l,lc".data := by decide

/-- C7 (amended): the normalizer is idempotent on exactly those inputs
whose normal form contains no further occurrence of any replacement
pattern: if no pattern of `replacements` occurs in `normalize(x)` then
`normalize(normalize(x)) = normalize(x)`.  In general idempotence fails
(see the counterexample) because deleting a pattern or the comma/period
can create a new pattern occurrence. -/
theorem c7_idempotent_amended (x : Str)
    (h : ∀ p ∈ replacements, containsPat p (normalizeName x) = false) :
    normalizeName (normalizeName x) = normalizeName x := by
  by_cases hnil : normalizeName x = []
  · rw [hnil]
    rfl
  · by_cases hx : x = []
    · exact absurd (by rw [hx]; rfl) hnil
    · conv_lhs => rw [normalizeName]
      rw [if_neg hnil, map_pyLower_normalizeName x,
        foldl_replaceAll_id _ replacements h]
      have hval : normalizeName x = pyStrip
          (replacements.foldl (fun s p => replaceAll p s)
            (x.map pyLower)) := by
        rw [normalizeName, if_neg hx]
      rw [hval, pyStrip_idem]

/-- C7 witness: `"Acme Inc."` normalizes to `"acme"`, which contains no
replacement pattern, so a second pass leaves it unchanged. -/
theorem c7_witness :
    (∀ p ∈ replacements,
      containsPat p (normalizeName "Acme Inc.".data) = false) ∧
    normalizeName (normalizeName "Acme Inc.".data)
      = normalizeName "Acme Inc.".data :=
  ⟨by decide, c7_idempotent_amended "Acme Inc.".data (by decide)⟩

/-- C3 counterexample: the two sides of the claimed equation differ:
`normalize("Acme Inc.")` is `"acme"` but `normalize("ACME INC")` is
`"acme inc"`, because the suffix rule is the substring `" inc."` and
`"ACME INC"` has no trailing period. -/
theorem c3_counterexample :
    normalizeName "Acme Inc.".data ≠ normalizeName "ACME INC".data := by
  decide

/-- C3 (amended): the normalizer is case-insensitive — lowercasing the
input first never changes the result — but the claimed equation fails:
`normalize("Acme Inc.") = "acme"` while `normalize("ACME INC") =
"acme inc"`; with the trailing period restored the two inputs do agree:
`normalize("Acme Inc.") = normalize("ACME INC.")`. -/
theorem c3_case_insensitive_amended :
    (∀ x : Str, normalizeName (x.map pyLower) = normalizeName x) ∧
    normalizeName "Acme Inc.".data = "acme".data ∧
    normalizeName "ACME INC".data = "acme inc".data ∧
    normalizeName "Acme Inc.".data = normalizeName "ACME INC.".data :=
  ⟨normalizeName_map_pyLower, by decide, by decide, by decide⟩

/-! Score-bound invariants: while every comparison scores at most 95, the
running best stays at most 95. -/

theorem scanAliases_le95 (sim : Str → Str → Nat) (nname : Str) (idx : Nat)
    (c : RegistryClient) :
    ∀ as : List Str, (∀ b ∈ as, sim nname (normalizeName b) ≤ 95) →
      ∀ st : BestState, st.best_score ≤ 95 →
      (scanAliases sim nname idx c as st).best_score ≤ 95 := by
  intro as
  induction as with
  | nil => intro _ st h; exact h
  | cons b rest ih =>
    intro hb st hst
    simp only [scanAliases]
    apply ih (fun q hq => hb q (List.mem_cons_of_mem _ hq))
    by_cases hgt : sim nname (normalizeName b) > st.best_score
    · simp only [if_pos hgt]
      exact hb b (by simp)
    · simp only [if_neg hgt]
      exact hst

theorem scanName_le95 (sim : Str → Str → Nat) (idx : Nat)
    (c : RegistryClient) (nm : Str)
    (hname : sim (normalizeName nm) (normalizeName c.client_name) ≤ 95)
    (halias : ∀ b ∈ c.client_aliases,
      sim (normalizeName nm) (normalizeName b) ≤ 95)
    (st : BestState) (hst : st.best_score ≤ 95) :
    (scanName sim idx c nm st).best_score ≤ 95 := by
  unfold scanName
  by_cases hgt :
      sim (normalizeName nm) (normalizeName c.client_name) > st.best_score
  · simp only [if_pos hgt]
    split
    · exact hname
    · exact scanAliases_le95 sim _ idx c c.client_aliases halias _ hname
  · simp only [if_neg hgt]
    split
    · exact hst
    · exact scanAliases_le95 sim _ idx c c.client_aliases halias _ hst

theorem processNames_le95 (sim : Str → Str → Nat) (idx : Nat)
    (c : RegistryClient) :
    ∀ names : List Str,
      (∀ nm ∈ names, sim (normalizeName nm) (normalizeName c.client_name)
        ≤ 95) →
      (∀ nm ∈ names, ∀ b ∈ c.client_aliases,
        sim (normalizeName nm) (normalizeName b) ≤ 95) →
      ∀ st : BestState, st.best_score ≤ 95 →
      (processNames sim idx c names st).best_score ≤ 95 := by
  intro names
  induction names with
  | nil => intro _ _ st h; exact h
  | cons nm rest ih =>
    intro hn ha st hst
    simp only [processNames]
    exact ih (fun q hq => hn q (List.mem_cons_of_mem _ hq))
      (fun q hq => ha q (List.mem_cons_of_mem _ hq)) _
      (scanName_le95 sim idx c nm (hn nm (by simp))
        (ha nm (by simp)) st hst)

theorem scanClients_le95 (sim : Str → Str → Nat) (allNames : List Str)
    (np : Str) :
    ∀ clients : List RegistryClient,
      (∀ x ∈ clients, np ≠ normalizeName x.client_name) →
      (∀ nm ∈ allNames, ∀ x ∈ clients,
        sim (normalizeName nm) (normalizeName x.client_name) ≤ 95) →
      (∀ nm ∈ allNames, ∀ x ∈ clients, ∀ b ∈ x.client_aliases,
        sim (normalizeName nm) (normalizeName b) ≤ 95) →
      ∀ (idx : Nat) (st : BestState) (alts : List AltMatch),
        st.best_score ≤ 95 →
        (scanClients sim allNames np clients idx st alts).1.best_score
          ≤ 95 := by
  intro clients
  induction clients with
  | nil => intro _ _ _ idx st alts h; exact h
  | cons c rest ih =>
    intro hx hn ha idx st alts hst
    simp only [scanClients, if_neg (hx c (by simp))]
    refine ih (fun x h => hx x (List.mem_cons_of_mem _ h))
      (fun nm hnm x h => hn nm hnm x (List.mem_cons_of_mem _ h))
      (fun nm hnm x h => ha nm hnm x (List.mem_cons_of_mem _ h)) _ _ _ ?_
    have hname : ∀ nm ∈ allNames,
        sim (normalizeName nm) (normalizeName c.client_name) ≤ 95 :=
      fun nm hnm => hn nm hnm c (by simp)
    have halias : ∀ nm ∈ allNames, ∀ b ∈ c.client_aliases,
        sim (normalizeName nm) (normalizeName b) ≤ 95 :=
      fun nm hnm => ha nm hnm c (by simp)
    exact processNames_le95 sim idx c allNames hname halias st hst

/-! Frozen-state lemmas: once the running best reached 100, no comparison
bounded by 100 changes the state. -/

theorem scanAliases_frozen (sim : Str → Str → Nat) (nname : Str) (idx : Nat)
    (c : RegistryClient) :
    ∀ as : List Str, (∀ b ∈ as, sim nname (normalizeName b) ≤ 100) →
      ∀ st : BestState, st.best_score = 100 →
      scanAliases sim nname idx c as st = st := by
  intro as
  induction as with
  | nil => intro _ st _; rfl
  | cons b rest ih =>
    intro hb st hst
    have hng : ¬ sim nname (normalizeName b) > st.best_score := by
      rw [hst]
      have := hb b (by simp)
      omega
    simp only [scanAliases, if_neg hng]
    exact ih (fun q hq => hb q (List.mem_cons_of_mem _ hq)) st hst

theorem scanName_frozen (sim : Str → Str → Nat) (idx : Nat)
    (c : RegistryClient) (nm : Str)
    (hname : sim (normalizeName nm) (normalizeName c.client_name) ≤ 100)
    (st : BestState) (hst : st.best_score = 100) :
    scanName sim idx c nm st = st := by
  unfold scanName
  have hng : ¬ sim (normalizeName nm) (normalizeName c.client_name)
      > st.best_score := by
    rw [hst]
    omega
  simp only [if_neg hng]
  rw [if_pos (by rw [hst]; omega)]

theorem processNames_frozen (sim : Str → Str → Nat) (idx : Nat)
    (c : RegistryClient) :
    ∀ names : List Str,
      (∀ nm ∈ names, sim (normalizeName nm) (normalizeName c.client_name)
        ≤ 100) →
      ∀ st : BestState, st.best_score = 100 →
      processNames sim idx c names st = st := by
  intro names
  induction names with
  | nil => intro _ st _; rfl
  | cons nm rest ih =>
    intro hn st hst
    simp only [processNames]
    rw [scanName_frozen sim idx c nm (hn nm (by simp)) st hst]
    exact ih (fun q hq => hn q (List.mem_cons_of_mem _ hq)) st hst

theorem scanClients_frozen (sim : Str → Str → Nat) (allNames : List Str)
    (np : Str) :
    ∀ clients : List RegistryClient,
      (∀ x ∈ clients, np ≠ normalizeName x.client_name) →
      (∀ nm ∈ allNames, ∀ x ∈ clients,
        sim (normalizeName nm) (normalizeName x.client_name) ≤ 100) →
      ∀ (idx : Nat) (st : BestState) (alts : List AltMatch),
        st.best_score = 100 →
        (scanClients sim allNames np clients idx st alts).1 = st := by
  intro clients
  induction clients with
  | nil => intro _ _ idx st alts _; rfl
  | cons c rest ih =>
    intro hx hn idx st alts hst
    simp only [scanClients, if_neg (hx c (by simp))]
    rw [processNames_frozen sim idx c allNames
      (fun nm hnm => hn nm hnm c (by simp)) st hst]
    exact ih (fun x h => hx x (List.mem_cons_of_mem _ h))
      (fun nm hnm x h => hn nm hnm x (List.mem_cons_of_mem _ h)) _ _ _ hst

/-! The alias hit: scanning the aliases of the client that carries the
matching alias raises the best state to score 100 with the alias
reason. -/

theorem scanAliases_hit (sim : Str → Str → Nat) (nname : Str) (idx : Nat)
    (c : RegistryClient) (a : Str) (apost : List Str)
    (ha : sim nname (normalizeName a) = 100)
    (hpost : ∀ b ∈ apost, sim nname (normalizeName b) ≤ 100) :
    ∀ apre : List Str,
      (∀ b ∈ apre, sim nname (normalizeName b) ≤ 95) →
      ∀ st : BestState, st.best_score ≤ 95 →
      scanAliases sim nname idx c (apre ++ a :: apost) st =
        ⟨100, some idx, some c.client_id, some c.client_name,
          [fuzzyAliasReason 100 a]⟩ := by
  intro apre
  induction apre with
  | nil =>
    intro _ st hst
    have hgt : sim nname (normalizeName a) > st.best_score := by
      rw [ha]
      omega
    simp only [List.nil_append, scanAliases]
    rw [if_pos hgt, ha]
    exact scanAliases_frozen sim nname idx c apost hpost
      ⟨100, some idx, some c.client_id, some c.client_name,
        [fuzzyAliasReason 100 a]⟩ rfl
  | cons b rest ih =>
    intro hb st hst
    simp only [List.cons_append, scanAliases]
    by_cases hgt : sim nname (normalizeName b) > st.best_score
    · simp only [if_pos hgt]
      exact ih (fun q hq => hb q (List.mem_cons_of_mem _ hq)) _
        (hb b (by simp))
    · simp only [if_neg hgt]
      exact ih (fun q hq => hb q (List.mem_cons_of_mem _ hq)) st hst

theorem scanName_hit (sim : Str → Str → Nat) (idx : Nat)
    (c : RegistryClient) (nm : Str) (apre : List Str) (a : Str)
    (apost : List Str) (hsplit : c.client_aliases = apre ++ a :: apost)
    (hname : sim (normalizeName nm) (normalizeName c.client_name) ≤ 95)
    (hpre : ∀ b ∈ apre, sim (normalizeName nm) (normalizeName b) ≤ 95)
    (ha : sim (normalizeName nm) (normalizeName a) = 100)
    (hpost : ∀ b ∈ apost, sim (normalizeName nm) (normalizeName b) ≤ 100)
    (st : BestState) (hst : st.best_score ≤ 95) :
    scanName sim idx c nm st =
      ⟨100, some idx, some c.client_id, some c.client_name,
        [fuzzyAliasReason 100 a]⟩ := by
  unfold scanName
  by_cases hgt :
      sim (normalizeName nm) (normalizeName c.client_name) > st.best_score
  · simp only [if_pos hgt]
    rw [if_neg (show ¬ sim (normalizeName nm) (normalizeName c.client_name)
      > 95 by omega), hsplit]
    exact scanAliases_hit sim _ idx c a apost ha hpost apre hpre _ hname
  · simp only [if_neg hgt]
    rw [if_neg (by omega), hsplit]
    exact scanAliases_hit sim _ idx c a apost ha hpost apre hpre st hst

theorem processNames_hit (sim : Str → Str → Nat) (idx : Nat)
    (c : RegistryClient) (apre : List Str) (a : Str) (apost : List Str)
    (primary : Str) (alternatives : List Str)
    (hsplit : c.client_aliases = apre ++ a :: apost)
    (hname : sim (normalizeName primary) (normalizeName c.client_name)
      ≤ 95)
    (hpre : ∀ b ∈ apre,
      sim (normalizeName primary) (normalizeName b) ≤ 95)
    (ha : sim (normalizeName primary) (normalizeName a) = 100)
    (hpost : ∀ b ∈ apost,
      sim (normalizeName primary) (normalizeName b) ≤ 100)
    (halt : ∀ nm ∈ alternatives,
      sim (normalizeName nm) (normalizeName c.client_name) ≤ 100)
    (st : BestState) (hst : st.best_score ≤ 95) :
    processNames sim idx c (primary :: alternatives) st =
      ⟨100, some idx, some c.client_id, some c.client_name,
        [fuzzyAliasReason 100 a]⟩ := by
  simp only [processNames]
  rw [scanName_hit sim idx c primary apre a apost hsplit hname hpre ha
    hpost st hst]
  exact processNames_frozen sim idx c alternatives halt _ rfl

/-! Concrete evaluation of the 26-letter scenario refuting C9: client CA
scores 96 (> 95) against the primary name, which makes the scan skip the
alias list of client CB even though CB carries an alias identical to the
primary name. -/

theorem scanResult_xyz_fst :
    (scanResult simXYZ xyzInfo [xyyClient, xyzAliasClient]).1 =
      ⟨96, some 0, some "CA".data,
        some "abcdefghijklmnopqrstuvwxyy".data,
        [fuzzyNameReason 96]⟩ := by decide

theorem matchClient_xyz :
    matchClient simXYZ xyzInfo [xyyClient, xyzAliasClient] (3 / 4) =
      acceptResult simXYZ xyzInfo [xyyClient, xyzAliasClient] := by
  unfold matchClient
  rw [if_neg (by simp),
    if_pos (by rw [nscoreOf, scanResult_xyz_fst]; norm_num)]

/-- C9 counterexample: the candidate primary name equals (after
normalization) the alias of client CB and no client canonical name, and
no comparison scores above the alias comparison (CA scores 96 < 100).
Still the decision selects CA through the client-name path: the 96 > 95
running best makes the scan skip the alias list of CB entirely
(`mapper.py` lines 182-183), so the alias path never fires. -/
theorem c9_counterexample :
    (matchClient simXYZ xyzInfo [xyyClient, xyzAliasClient]
        (3 / 4)).matched_client_id = some "CA".data ∧
    (matchClient simXYZ xyzInfo [xyyClient, xyzAliasClient]
        (3 / 4)).match_reasons = some [fuzzyNameReason 96] ∧
    xyzAliasClient.client_aliases = [xyzInfo.primary_name] ∧
    (∀ x ∈ [xyyClient, xyzAliasClient],
      normalizeName x.client_name ≠ normalizeName xyzInfo.primary_name) ∧
    simXYZ (normalizeName xyzInfo.primary_name)
      (normalizeName xyyClient.client_name) = 96 := by
  refine ⟨?_, ?_, by decide, by decide, by decide⟩
  · rw [matchClient_xyz]
    show (scanResult simXYZ xyzInfo [xyyClient, xyzAliasClient]).1.best_client_id
        = some "CA".data
    rw [scanResult_xyz_fst]
  · rw [matchClient_xyz]
    show some (scanResult simXYZ xyzInfo
        [xyyClient, xyzAliasClient]).1.match_reasons = _
    rw [scanResult_xyz_fst]

/-- C9 (amended): the alias-selection scenario holds under the stronger
premise that every *other* comparison scores at most 95 (not merely below
the alias score): for a registry `pre ++ c :: post` where no canonical
name normalizes to the primary name, `c` is the first client carrying an
alias `a` normalizing to the primary name, the scorer gives 100 on
identical strings, and every comparison against canonical names or
non-matching aliases is at most 95, the decision (at any threshold ≤ 1)
selects `c` through the alias path with confidence 1 and the single
reason naming the winning alias — in particular the exact short-circuit
never fires.  (A competing score in (95, 100] on an earlier client makes
the scan skip the alias list, which is what the counterexample
exhibits.) -/
theorem c9_alias_path_amended (sim : Str → Str → Nat) (info : ClientInfo)
    (pre : List RegistryClient) (c : RegistryClient)
    (post : List RegistryClient) (apre : List Str) (a : Str)
    (apost : List Str) (t : Rat)
    (hsplit : c.client_aliases = apre ++ a :: apost)
    (h1 : ∀ x ∈ pre ++ c :: post,
      normalizeName x.client_name ≠ normalizeName info.primary_name)
    (h2 : ∀ b ∈ apre, normalizeName b ≠ normalizeName info.primary_name)
    (h3 : normalizeName a = normalizeName info.primary_name)
    (h4 : ∀ x ∈ pre, ∀ b ∈ x.client_aliases,
      normalizeName b ≠ normalizeName info.primary_name)
    (h5 : sim (normalizeName info.primary_name)
      (normalizeName info.primary_name) = 100)
    (h6 : ∀ nm ∈ info.primary_name :: info.alternative_names,
      ∀ x ∈ pre ++ c :: post,
      sim (normalizeName nm) (normalizeName x.client_name) ≤ 95)
    (h7 : ∀ nm ∈ info.primary_name :: info.alternative_names,
      ∀ x ∈ pre ++ c :: post, ∀ b ∈ x.client_aliases,
      normalizeName b ≠ normalizeName info.primary_name →
      sim (normalizeName nm) (normalizeName b) ≤ 95)
    (ht : t ≤ 1) :
    recommendationOf (matchClient sim info (pre ++ c :: post) t)
        = useMatch ∧
    (matchClient sim info (pre ++ c :: post) t).matched_client_id
        = some c.client_id ∧
    (matchClient sim info (pre ++ c :: post) t).matched_client_name
        = some c.client_name ∧
    (matchClient sim info (pre ++ c :: post) t).confidence_score = 1 ∧
    (matchClient sim info (pre ++ c :: post) t).match_reasons
        = some [fuzzyAliasReason 100 a] := by
  have hcmem : c ∈ pre ++ c :: post :=
    List.mem_append_right _ (by simp)
  have hprim : info.primary_name
      ∈ info.primary_name :: info.alternative_names := by simp
  have hpre_noex : ∀ x ∈ pre,
      normalizeName info.primary_name ≠ normalizeName x.client_name :=
    fun x hx => (h1 x (List.mem_append_left _ hx)).symm
  have hsplitS := scanClients_append_noexact sim
    (info.primary_name :: info.alternative_names)
    (normalizeName info.primary_name) pre hpre_noex (c :: post) 0
    initState []
  have hzero : (0 : Nat) + pre.length = pre.length := by omega
  rw [hzero] at hsplitS
  have hS1le : (scanClients sim
      (info.primary_name :: info.alternative_names)
      (normalizeName info.primary_name) pre 0 initState
      []).1.best_score ≤ 95 := by
    refine scanClients_le95 sim _ _ pre hpre_noex ?_ ?_ 0 initState []
      (by decide)
    · exact fun nm hnm x hx => h6 nm hnm x (List.mem_append_left _ hx)
    · exact fun nm hnm x hx b hb =>
        h7 nm hnm x (List.mem_append_left _ hx) b hb (h4 x hx b hb)
  have hcneg : ¬ normalizeName info.primary_name
      = normalizeName c.client_name :=
    fun h => h1 c hcmem h.symm
  have hname6 : sim (normalizeName info.primary_name)
      (normalizeName c.client_name) ≤ 95 := h6 _ hprim c hcmem
  have hpre7 : ∀ b ∈ apre, sim (normalizeName info.primary_name)
      (normalizeName b) ≤ 95 :=
    fun b hb => h7 _ hprim c hcmem b
      (hsplit ▸ List.mem_append_left _ hb) (h2 b hb)
  have ha100 : sim (normalizeName info.primary_name)
      (normalizeName a) = 100 := by rw [h3]; exact h5
  have hpost100 : ∀ b ∈ apost, sim (normalizeName info.primary_name)
      (normalizeName b) ≤ 100 := by
    intro b hb
    by_cases hbe : normalizeName b = normalizeName info.primary_name
    · rw [hbe]
      exact h5.le
    · exact le_trans (h7 _ hprim c hcmem b
        (hsplit ▸ List.mem_append_right _ (List.mem_cons_of_mem _ hb))
        hbe) (by omega)
  have halt100 : ∀ nm ∈ info.alternative_names,
      sim (normalizeName nm) (normalizeName c.client_name) ≤ 100 :=
    fun nm hnm => le_trans
      (h6 nm (List.mem_cons_of_mem _ hnm) c hcmem) (by omega)
  have hstate : (scanResult sim info (pre ++ c :: post)).1 =
      ⟨100, some pre.length, some c.client_id, some c.client_name,
        [fuzzyAliasReason 100 a]⟩ := by
    unfold scanResult
    rw [hsplitS]
    simp only [scanClients, if_neg hcneg]
    rw [processNames_hit sim pre.length c apre a apost info.primary_name
      info.alternative_names hsplit hname6 hpre7 ha100 hpost100 halt100
      _ hS1le]
    exact scanClients_frozen sim _ _ post
      (fun x hx h => h1 x
        (List.mem_append_right _ (List.mem_cons_of_mem _ hx)) h.symm)
      (fun nm hnm x hx => le_trans (h6 nm hnm x
        (List.mem_append_right _ (List.mem_cons_of_mem _ hx)))
        (by omega))
      _ _ _ rfl
  have hn : nscoreOf sim info (pre ++ c :: post) = 1 := by
    rw [nscoreOf, hstate]
    norm_num
  have hne : pre ++ c :: post ≠ [] := by simp
  have hacc : matchClient sim info (pre ++ c :: post) t
      = acceptResult sim info (pre ++ c :: post) := by
    unfold matchClient
    rw [if_neg hne, if_pos (by rw [hn]; exact ht)]
  rw [hacc]
  refine ⟨rfl, ?_, ?_, ?_, ?_⟩
  · show (scanResult sim info (pre ++ c :: post)).1.best_client_id = _
    rw [hstate]
  · show (scanResult sim info (pre ++ c :: post)).1.best_client_name = _
    rw [hstate]
  · show nscoreOf sim info (pre ++ c :: post) = 1
    exact hn
  · show some (scanResult sim info (pre ++ c :: post)).1.match_reasons = _
    rw [hstate]

/-- C9 witness: candidate "Zeta" against a single client "000" carrying
alias "zeta": selected via the alias path with confidence 1 and the alias
reason. -/
theorem c9_witness :
    normalizeName "zeta".data = normalizeName zetaInfo.primary_name ∧
    (matchClient simEq zetaInfo [zetaAliasClient] (3 / 4)).matched_client_id
        = some zetaAliasClient.client_id ∧
    (matchClient simEq zetaInfo [zetaAliasClient] (3 / 4)).match_reasons
        = some [fuzzyAliasReason 100 "zeta".data] :=
  ⟨by decide,
    (c9_alias_path_amended simEq zetaInfo [] zetaAliasClient [] []
      "zeta".data [] (3 / 4) rfl (by decide) (by decide) (by decide)
      (by decide) (by decide) (by decide) (by decide)
      rat_three_quarters_le_one).2.1,
    (c9_alias_path_amended simEq zetaInfo [] zetaAliasClient [] []
      "zeta".data [] (3 / 4) rfl (by decide) (by decide) (by decide)
      (by decide) (by decide) (by decide) (by decide)
      rat_three_quarters_le_one).2.2.2.2⟩

end ClientMapping
